import Mathlib

/-!
Verification of the Catalog Traversal & Aggregation Engine of the
Collibra community export tool (`indexGraphQL.js` / `CollibraClient`).

The development shallowly embeds the relevant JavaScript into Lean:

* The remote catalog service is modelled as a plain list of records held by
  the server; an offset/limit request returns the corresponding slice
  (`(data.drop offset).take limit`), which is exactly the contract of the
  REST endpoints the client calls.
* `fetchAllPages` (the pagination helper) is embedded as a structurally
  faithful recursive function on the server data, together with an
  instrumented variant that records the offsets of the requests issued and
  a fallible variant in which individual requests may raise.
* `findDescendants` (the recursive closure inside `getAllSubcommunities`)
  diverges on cyclic inputs, so it is embedded as a big-step evaluation
  relation `FindLoop`: a derivation exists exactly for the terminating runs
  of the JavaScript recursion, and the result list is the value returned.
-/

/-- A community record as returned by the `/communities` endpoint:
identifier, name, optional description, and the identifier of the parent
community when one exists (`comm.parent && comm.parent.id` in the source). -/
structure Community where
  id : String
  name : String
  description : Option String := none
  parent : Option String := none
deriving Repr, DecidableEq

/-- A per-unit outcome record as consumed by `main` (lines 300–307 of the
source): a success flag, the community name, and an error description for
failures. -/
structure ExportResult where
  success : Bool
  community : String
  error : Option String := none
deriving Repr, DecidableEq

/-- The fixed page size used by every paginated call in the client
(`limit = 1000`). -/
def pageSize : Nat := 1000

/-- The slice of server data returned by one offset/limit request: the
remote service holds `data` and answers `{offset, limit}` with the items at
positions `offset … offset+limit-1`. -/
def pageOf {α : Type} (data : List α) (offset : Nat) : List α :=
  (data.drop offset).take pageSize

/-- Embedding of the loop body of `fetchAllPages`, started at an arbitrary
offset: request the page at `offset`, append it, and continue at
`offset + pageSize` exactly when the page was full
(`hasMore = items.length === limit`). -/
def fetchPagesFrom {α : Type} (data : List α) (offset : Nat) : List α :=
  if h : (pageOf data offset).length = pageSize then
    pageOf data offset ++ fetchPagesFrom data (offset + pageSize)
  else
    pageOf data offset
termination_by data.length - offset
decreasing_by
  simp only [pageOf, List.length_take, List.length_drop] at h
  have hpos : 0 < pageSize := by decide
  omega

/-- `fetchAllPages` from the source: run the pagination loop from offset 0
and return the accumulated items. -/
def fetchAllPages {α : Type} (data : List α) : List α :=
  fetchPagesFrom data 0

/-- The offsets at which the pagination loop issues requests, in order;
same recursion structure as `fetchPagesFrom`. -/
def fetchPagesOffsets {α : Type} (data : List α) (offset : Nat) : List Nat :=
  if h : (pageOf data offset).length = pageSize then
    offset :: fetchPagesOffsets data (offset + pageSize)
  else
    [offset]
termination_by data.length - offset
decreasing_by
  simp only [pageOf, List.length_take, List.length_drop] at h
  have hpos : 0 < pageSize := by decide
  omega

/-- Fallible pagination: the transport (`makeRequest`) may raise. The
failure pattern of the run is given by `failAt`: a request at a given
offset either raises with the given description or answers with the page of
server data. A raised error propagates out of the loop unchanged, exactly
as the un-caught `await this.makeRequest(...)` does in `fetchAllPages`. -/
def fetchPagesFromE {α : Type} (data : List α) (failAt : Nat → Option String)
    (offset : Nat) : Except String (List α) :=
  match failAt offset with
  | some e => .error e
  | none =>
    if h : (pageOf data offset).length = pageSize then
      (fetchPagesFromE data failAt (offset + pageSize)).map
        (fun rest => pageOf data offset ++ rest)
    else
      .ok (pageOf data offset)
termination_by data.length - offset
decreasing_by
  simp only [pageOf, List.length_take, List.length_drop] at h
  have hpos : 0 < pageSize := by decide
  omega

/-- The fallible pagination loop started at offset 0, as `fetchAllPages`
runs it. -/
def fetchAllPagesE {α : Type} (data : List α) (failAt : Nat → Option String) :
    Except String (List α) :=
  fetchPagesFromE data failAt 0

/-- The offsets at which the fallible pagination loop issues requests, in
order; the loop stops at a short page or at the first raising request. -/
def fetchPagesOffsetsE {α : Type} (data : List α) (failAt : Nat → Option String)
    (offset : Nat) : List Nat :=
  match failAt offset with
  | some _ => [offset]
  | none =>
    if h : (pageOf data offset).length = pageSize then
      offset :: fetchPagesOffsetsE data failAt (offset + pageSize)
    else
      [offset]
termination_by data.length - offset
decreasing_by
  simp only [pageOf, List.length_take, List.length_drop] at h
  have hpos : 0 < pageSize := by decide
  omega

/-- The offsets requested by the fallible pagination loop, from offset 0. -/
def fetchAllOffsetsE {α : Type} (data : List α) (failAt : Nat → Option String) :
    List Nat :=
  fetchPagesOffsetsE data failAt 0

/-- Big-step evaluation relation for the recursive closure
`findDescendants` inside `getAllSubcommunities`.  `FindLoop all p l res`
holds when the `for (const comm of communities)` loop, run over the
remaining communities `l` with current parent identifier `p` (and with the
full fetched listing `all` in scope for the recursive calls), terminates
and returns `res`: a matching community (`comm.parent && comm.parent.id
=== parentId`) contributes itself followed by the recursively computed
descendants of its own identifier; a non-matching community contributes
nothing.  A derivation exists exactly when the JavaScript recursion
terminates. -/
inductive FindLoop (all : List Community) : String → List Community → List Community → Prop where
  | nil (p : String) : FindLoop all p [] []
  | consMatch {p : String} {c : Community} {l sub r : List Community} :
      c.parent = some p →
      FindLoop all c.id all sub →
      FindLoop all p l r →
      FindLoop all p (c :: l) (c :: (sub ++ r))
  | consSkip {p : String} {c : Community} {l r : List Community} :
      c.parent ≠ some p →
      FindLoop all p l r →
      FindLoop all p (c :: l) r

/-- Terminating runs of `findDescendants(communityId)` over the listing
`all`: the loop over the whole listing with the root identifier. -/
def FindDescRel (all : List Community) (communityId : String) (res : List Community) : Prop :=
  FindLoop all communityId all res

/-- Transitive reachability through parent references, as matched by the
resolver: a community is reachable from `root` when its parent reference
is `root` itself, or its parent reference is the identifier of a reachable
community. -/
inductive Reaches (all : List Community) (root : String) : Community → Prop where
  | step {c : Community} : c ∈ all → c.parent = some root → Reaches all root c
  | trans {d c : Community} : Reaches all root d → c ∈ all →
      c.parent = some d.id → Reaches all root c

/-- One community respects a rank assignment when its parent (if any) has
strictly smaller rank than itself. -/
def parentRankOk (rank : String → Nat) (c : Community) : Bool :=
  match c.parent with
  | none => true
  | some q => rank q < rank c.id

/-- A rank assignment witnessing that the parent references of a listing
are acyclic: every parent has strictly smaller rank than its child.  Such
an assignment exists exactly when the (finite) parent graph has no cycle,
so this is the forest invariant of the data model. -/
def RankOk (rank : String → Nat) (all : List Community) : Prop :=
  ∀ c ∈ all, parentRankOk rank c = true

/-- The forest invariant on a community listing: some rank assignment
orders every child strictly above its parent (no parent cycles). -/
def Acyclic (all : List Community) : Prop :=
  ∃ rank : String → Nat, RankOk rank all

/-- The invariant that an identifier appears at most once per listing. -/
def NodupIds (all : List Community) : Prop :=
  (all.map Community.id).Nodup

/-- A one-community listing whose parent reference points at itself: the
smallest cyclic input. -/
def cycCommunity : Community :=
  { id := "a", name := "A", parent := some "a" }

/-- The cyclic listing used to exhibit divergence of the resolver. -/
def cycListing : List Community := [cycCommunity]

/-- The communities endpoint of the remote query service (interface of §6
of the design): the catalog holds `data` in response order; an optional
exact-name filter (`nameMatchMode: EXACT`, as `getCommunityByName` sends)
restricts the results to communities named exactly `n`, and the offset and
limit window is applied to the filtered sequence. -/
def queryCommunities (data : List Community) (nameFilter : Option String)
    (offset limit : Nat) : List Community :=
  let matched := match nameFilter with
    | none => data
    | some n => data.filter (fun c => c.name = n)
  (matched.drop offset).take limit

/-- `getCommunities` with default parameters: no name filter, offset 0,
limit 1000 — a single request returning only the first page of the
catalog. -/
def getCommunities (data : List Community) : List Community :=
  queryCommunities data none 0 pageSize

/-- The flat listing over which `getAllSubcommunities` resolves
descendants: the single `this.getCommunities({ limit: 1000 })` response
(first page only, not `fetchAllPages`). -/
def subcommunitiesListing (data : List Community) : List Community :=
  getCommunities data

/-- Terminating runs of `getAllSubcommunities(communityId)` against a
catalog `data`: `findDescendants` over the fetched first-page listing. -/
def GetAllSubcommunitiesRel (data : List Community) (communityId : String)
    (res : List Community) : Prop :=
  FindDescRel (subcommunitiesListing data) communityId res

/-- `getCommunityByName` from the source: query with the exact-match name
filter, return `null` on an empty result and the first community
otherwise. -/
def getCommunityByName (data : List Community) (name : String) :
    Option Community :=
  match queryCommunities data (some name) 0 pageSize with
  | [] => none
  | c :: _ => some c

/-- The export options record assembled by `configureExportOptions`
(§3 ExportOptions): four booleans gating assets and the three per-asset
sub-fetches. -/
structure ExportOptions where
  includeAssets : Bool
  includeAttributes : Bool
  includeRelations : Bool
  includeResponsibilities : Bool
deriving Repr, DecidableEq

/-- The answers a user would give to the four confirm prompts if all four
were asked. -/
structure PromptAnswers where
  includeAssets : Bool
  includeAttributes : Bool
  includeRelations : Bool
  includeResponsibilities : Bool
deriving Repr, DecidableEq

/-- `configureExportOptions` from the source: the three sub-fetch prompts
carry `when: (answers) => answers.includeAssets`, so when assets are
excluded they are never asked and their answers stay unset (falsy); the
questions themselves are identical in structure for the GraphQL and REST
variants. -/
def configureExportOptions (u : PromptAnswers) : ExportOptions :=
  { includeAssets := u.includeAssets
    includeAttributes := u.includeAssets && u.includeAttributes
    includeRelations := u.includeAssets && u.includeRelations
    includeResponsibilities := u.includeAssets && u.includeResponsibilities }

/-- An attribute of an asset: a key/value/type triple (§3). -/
structure AssetAttribute where
  key : String
  value : String
  attrType : String
deriving Repr, DecidableEq

/-- A relation of an asset: the related asset and the relation type (§3). -/
structure AssetRelation where
  relatedAsset : String
  relationType : String
deriving Repr, DecidableEq

/-- A responsibility assignment: role and assignee (§3). -/
structure Responsibility where
  role : String
  assignee : String
deriving Repr, DecidableEq

/-- An asset base record (§3). -/
structure Asset where
  id : String
  name : String
  domainId : String
  assetType : Option String := none
deriving Repr, DecidableEq

/-- The three optional sub-fetches the aggregator can issue for one asset. -/
inductive SubFetch where
  | attributes
  | relations
  | responsibilities
deriving Repr, DecidableEq

/-- The merged record produced by the aggregator: each requested facet is
present as a (possibly empty) sequence, and a facet whose flag is off is
absent (`none`), not present-but-empty. -/
structure EnrichedAsset where
  asset : Asset
  attributes : Option (List AssetAttribute)
  relations : Option (List AssetRelation)
  responsibilities : Option (List Responsibility)
deriving Repr, DecidableEq

/-- Modelled from the spec: the Asset Aggregator (`aggregate`, §4.3) lives
in the exporter modules (`collibraExporter.js` / `collibraGraphQLExporter.js`),
which are not part of the sources here; only its option gating is visible in
`configureExportOptions`.  Per §4.3 and the §3 invariant, each sub-fetch is
issued exactly when assets are included and its own flag is set (the flags
are inert when `includeAssets` is false), the fetched facet is attached as
a sequence, and an omitted facet is absent from the record.  The remote
side is abstracted as per-asset response functions; the function returns
the merged record together with the list of sub-fetches issued. -/
def aggregate (opts : ExportOptions)
    (fetchAttributes : String → List AssetAttribute)
    (fetchRelations : String → List AssetRelation)
    (fetchResponsibilities : String → List Responsibility)
    (a : Asset) : EnrichedAsset × List SubFetch :=
  let doAttrs := opts.includeAssets && opts.includeAttributes
  let doRels := opts.includeAssets && opts.includeRelations
  let doResps := opts.includeAssets && opts.includeResponsibilities
  (⟨a,
    if doAttrs then some (fetchAttributes a.id) else none,
    if doRels then some (fetchRelations a.id) else none,
    if doResps then some (fetchResponsibilities a.id) else none⟩,
   (if doAttrs then [SubFetch.attributes] else []) ++
   (if doRels then [SubFetch.relations] else []) ++
   (if doResps then [SubFetch.responsibilities] else []))

/-- Modelled from the spec: the per-unit export pipeline of the Batch
Export Orchestrator (§4.4) — resolve the unit's hierarchy, aggregate its
assets, write through the sink — is in `collibraExporter.js`, not part of
the sources here.  It is abstracted as a function from the unit to either
a successful completion or a raised failure description;
`exportCommunity(community, options)` runs it and lets any failure
propagate to the caller. -/
def exportCommunity (pipeline : Community → Except String Unit)
    (c : Community) : Except String Unit :=
  pipeline c

/-- The outcome record for one unit: Success naming the unit, or Failure
naming the unit and carrying the failure's description (§3 ExportResult,
consumed by `main` as `{success, community, error}`). -/
def unitResult (pipeline : Community → Except String Unit)
    (c : Community) : ExportResult :=
  match pipeline c with
  | .ok _ => { success := true, community := c.name, error := none }
  | .error e => { success := false, community := c.name, error := some e }

/-- Modelled from the spec: `exportMultipleCommunities` (§4.4) is in
`collibraExporter.js`, not part of the sources here; `main` consumes its
result list (lines 298–307).  Each unit is processed strictly in input
order; a unit whose pipeline raises is caught at the per-unit boundary and
recorded as a Failure result, and processing continues unconditionally with
the next unit. -/
def exportMultipleCommunities (pipeline : Community → Except String Unit) :
    List Community → List ExportResult
  | [] => []
  | c :: rest => unitResult pipeline c :: exportMultipleCommunities pipeline rest

/-- A sub-community of the root, used in concrete runs. -/
def exChild1 : Community := { id := "a", name := "Dept A", parent := some "r" }

/-- A sub-sub-community under `exChild1`. -/
def exChild2 : Community := { id := "b", name := "Team B", parent := some "a" }

/-- A two-community forest hanging under the root identifier `r`. -/
def exForest : List Community := [exChild1, exChild2]

/-- A rank assignment witnessing that `exForest` is acyclic. -/
def exForestRank : String → Nat :=
  fun s => if s = "a" then 1 else if s = "b" then 2 else 0

/-- A filler community for catalogs larger than one page. -/
def fillerCommunity : Community := { id := "fill", name := "Filler" }

/-- A community that only appears on the second page of the catalog. -/
def overflowChild : Community := { id := "c", name := "C", parent := some "root" }

/-- A catalog of 1001 communities: one full page of fillers followed by a
direct child of `root`. -/
def bigCatalog : List Community :=
  List.replicate pageSize fillerCommunity ++ [overflowChild]

/-- Three export units for the batch-orchestration runs. -/
def exUnit1 : Community := { id := "1", name := "Unit One" }

def exUnit2 : Community := { id := "2", name := "Unit Two" }

def exUnit3 : Community := { id := "3", name := "Unit Three" }

/-- A per-unit pipeline in which unit 2's asset fetch raises. -/
def exPipeline : Community → Except String Unit :=
  fun c => if c.id = "2" then .error "asset fetch failed" else .ok ()

/-- A failure pattern in which the request at offset 1000 raises. -/
def exFailAt : Nat → Option String :=
  fun o => if o = pageSize then some "request failed" else none

instance rankOkDecidable (rank : String → Nat) (all : List Community) :
    Decidable (RankOk rank all) :=
  inferInstanceAs (Decidable (∀ c ∈ all, parentRankOk rank c = true))

instance nodupIdsDecidable (all : List Community) :
    Decidable (NodupIds all) :=
  inferInstanceAs (Decidable ((all.map Community.id).Nodup))

theorem pageSize_pos : 0 < pageSize := by decide

lemma fetchPagesFrom_eq_drop {α : Type} (data : List α) (offset : Nat) :
    fetchPagesFrom data offset = data.drop offset := by
  refine fetchPagesFrom.induct data
    (fun offset => fetchPagesFrom data offset = data.drop offset) ?_ ?_ offset
  · intro offset h ih
    rw [fetchPagesFrom]
    rw [dif_pos h, ih]
    simp only [pageOf]
    rw [← List.drop_drop]
    exact List.take_append_drop _ _
  · intro offset h
    rw [fetchPagesFrom]
    rw [dif_neg h]
    simp only [pageOf] at h ⊢
    have hle : data.length - offset < pageSize := by
      simp only [List.length_take, List.length_drop] at h
      have hpos := pageSize_pos
      omega
    exact List.take_of_length_le (by simpa using Nat.le_of_lt hle)

/-- Completeness of the pagination helper on the server model: every item
is returned, in order. -/
lemma fetchAllPages_complete {α : Type} (data : List α) :
    fetchAllPages data = data := by
  simpa using fetchPagesFrom_eq_drop data 0

lemma fetchPagesFrom_short {α : Type} (data : List α) (offset : Nat)
    (h : (pageOf data offset).length < pageSize) :
    fetchPagesFrom data offset = pageOf data offset := by
  unfold fetchPagesFrom
  split
  case isTrue h' => omega
  case isFalse h' => rfl

lemma fetchPagesOffsets_short {α : Type} (data : List α) (offset : Nat)
    (h : (pageOf data offset).length < pageSize) :
    fetchPagesOffsets data offset = [offset] := by
  unfold fetchPagesOffsets
  split
  case isTrue h' => omega
  case isFalse h' => rfl

lemma range_map_succ {β : Type} (n : Nat) (f : Nat → β) :
    (List.range (n + 1)).map f = f 0 :: (List.range n).map (fun m => f (m + 1)) := by
  rw [List.range_succ_eq_map]
  simp [List.map_map, Function.comp]

lemma fetchPagesFromE_fail {α : Type} (data : List α)
    (failAt : Nat → Option String) :
    ∀ n offset e, (∀ m, m < n → failAt (offset + m * pageSize) = none) →
      (∀ m, m < n → (pageOf data (offset + m * pageSize)).length = pageSize) →
      failAt (offset + n * pageSize) = some e →
      fetchPagesFromE data failAt offset = .error e ∧
      fetchPagesOffsetsE data failAt offset =
        (List.range (n + 1)).map (fun m => offset + m * pageSize) := by
  intro n
  induction n with
  | zero =>
    intro offset e _ _ hfail
    simp only [Nat.zero_mul, Nat.add_zero] at hfail
    unfold fetchPagesFromE fetchPagesOffsetsE
    rw [hfail]
    simp [List.range_succ]
  | succ k ih =>
    intro offset e hok hfull hfail
    have h0 : failAt offset = none := by
      have := hok 0 (Nat.succ_pos k)
      simpa using this
    have hp0 : (pageOf data offset).length = pageSize := by
      have := hfull 0 (Nat.succ_pos k)
      simpa using this
    have hstep := ih (offset + pageSize) e
      (by
        intro m hm
        have := hok (m + 1) (by omega)
        simpa [Nat.add_mul, Nat.add_assoc, Nat.add_comm, Nat.add_left_comm]
          using this)
      (by
        intro m hm
        have := hfull (m + 1) (by omega)
        simpa [Nat.add_mul, Nat.add_assoc, Nat.add_comm, Nat.add_left_comm]
          using this)
      (by
        have : offset + (k + 1) * pageSize = offset + pageSize + k * pageSize := by
          ring
        rw [this] at hfail
        exact hfail)
    constructor
    · unfold fetchPagesFromE
      rw [h0]
      simp only [dif_pos hp0, hstep.1, Except.map]
    · unfold fetchPagesOffsetsE
      rw [h0]
      simp only [dif_pos hp0, hstep.2]
      rw [range_map_succ (k + 1) (fun m => offset + m * pageSize)]
      congr 1
      apply List.map_congr_left
      intro m _
      ring

lemma Reaches.mem {all : List Community} {root : String} {c : Community}
    (h : Reaches all root c) : c ∈ all := by
  cases h with
  | step hc _ => exact hc
  | trans _ hc _ => exact hc

lemma Reaches.parent_isSome {all : List Community} {root : String}
    {c : Community} (h : Reaches all root c) : ∃ q, c.parent = some q := by
  cases h with
  | step _ hp => exact ⟨_, hp⟩
  | trans _ _ hp => exact ⟨_, hp⟩

/-- Reachability composes through an intermediate community. -/
lemma Reaches.lift {all : List Community} {root : String} {c d : Community}
    (hc : Reaches all root c) (hd : Reaches all c.id d) :
    Reaches all root d := by
  induction hd with
  | step hm hp => exact Reaches.trans hc hm hp
  | trans _ hm hp ih => exact Reaches.trans ih hm hp

/-- The loop relation is deterministic: the JavaScript recursion computes
one value. -/
lemma FindLoop.det {all : List Community} {p : String} {l r1 : List Community}
    (h1 : FindLoop all p l r1) :
    ∀ r2, FindLoop all p l r2 → r1 = r2 := by
  induction h1 with
  | nil _ =>
    intro r2 h2
    cases h2
    rfl
  | consMatch hpar _ _ ihin ihrest =>
    intro r2 h2
    cases h2 with
    | consMatch hpar2 hin2 hrest2 => rw [ihin _ hin2, ihrest _ hrest2]
    | consSkip hne _ => exact absurd hpar hne
  | consSkip hne _ ih =>
    intro r2 h2
    cases h2 with
    | consMatch hpar2 _ _ => exact absurd hpar2 hne
    | consSkip _ hrest2 => exact ih _ hrest2

/-- Every community in a loop result carries its own terminating inner
run, embedded as a sublist right after it. -/
lemma FindLoop.inner {all : List Community} {p : String} {l res : List Community}
    (h : FindLoop all p l res) :
    ∀ d ∈ res, ∃ sub, FindLoop all d.id all sub ∧ (d :: sub).Sublist res := by
  induction h with
  | nil _ =>
    intro d hd
    cases hd
  | consMatch hpar hin _ ihin ihrest =>
    intro d hd
    rcases List.mem_cons.mp hd with rfl | hmem
    · exact ⟨_, hin, (List.sublist_append_left _ _).cons₂ _⟩
    · rcases List.mem_append.mp hmem with hs | hr
      · obtain ⟨s, hs1, hs2⟩ := ihin d hs
        exact ⟨s, hs1, hs2.trans ((List.sublist_append_left _ _).cons _)⟩
      · obtain ⟨s, hs1, hs2⟩ := ihrest d hr
        exact ⟨s, hs1, hs2.trans ((List.sublist_append_right _ _).cons _)⟩
  | consSkip _ _ ih =>
    intro d hd
    exact ih d hd

/-- A terminating run of `findDescendants(root)` never returns a community
whose identifier is `root` itself: such a community would restart the very
same computation strictly inside itself. -/
lemma FindLoop.not_mem_self {all : List Community} {root : String}
    {res : List Community} (h : FindLoop all root all res) :
    ∀ c ∈ res, c.id ≠ root := by
  intro c hc hid
  obtain ⟨sub, hsub, hsl⟩ := h.inner c hc
  rw [hid] at hsub
  have heq : sub = res := hsub.det res h
  have hlen : (c :: sub).length ≤ res.length := hsl.length_le
  rw [heq] at hlen
  simp at hlen

/-- Soundness of the loop: every returned community is reachable from the
current parent identifier. -/
lemma FindLoop.sound {all : List Community} {p : String} {l res : List Community} :
    FindLoop all p l res → l ⊆ all → ∀ c ∈ res, Reaches all p c := by
  intro h
  induction h with
  | nil _ =>
    intro _ d hd
    cases hd
  | consMatch hpar hin _ ihin ihrest =>
    intro hl d hd
    have hc : _ ∈ all := hl (List.mem_cons_self _ _)
    rcases List.mem_cons.mp hd with rfl | hmem
    · exact Reaches.step hc hpar
    · rcases List.mem_append.mp hmem with hs | hr
      · exact (Reaches.step hc hpar).lift (ihin (fun x hx => hx) d hs)
      · exact ihrest (fun x hx => hl (List.mem_cons_of_mem _ hx)) d hr
  | consSkip _ _ ih =>
    intro hl d hd
    exact ih (fun x hx => hl (List.mem_cons_of_mem _ hx)) d hd

/-- Every community of the scanned segment whose parent reference matches
the current parent identifier appears in the loop result. -/
lemma FindLoop.mem_of_child {all : List Community} {p : String}
    {l res : List Community} (h : FindLoop all p l res) :
    ∀ c ∈ l, c.parent = some p → c ∈ res := by
  induction h with
  | nil _ =>
    intro c hc _
    cases hc
  | consMatch _ _ _ _ ihrest =>
    intro c hc hcp
    rcases List.mem_cons.mp hc with rfl | hmem
    · exact List.mem_cons_self _ _
    · exact List.mem_cons_of_mem _ (List.mem_append_right _ (ihrest c hmem hcp))
  | consSkip hne _ ih =>
    intro c hc hcp
    rcases List.mem_cons.mp hc with rfl | hmem
    · exact absurd hcp hne
    · exact ih c hmem hcp

/-- Completeness: every community reachable from the root appears in the
result of the full loop. -/
lemma FindLoop.complete {all : List Community} {p : String}
    {res : List Community} (h : FindLoop all p all res) :
    ∀ c, Reaches all p c → c ∈ res := by
  intro c hr
  induction hr with
  | step hc hcp => exact h.mem_of_child _ hc hcp
  | @trans d c _ hc hcp ih =>
    obtain ⟨sub, hsub, hsl⟩ := h.inner d ih
    exact hsl.subset (List.mem_cons_of_mem _ (hsub.mem_of_child _ hc hcp))

/-- The loop only returns communities of the listing it iterates over. -/
lemma FindLoop.subset_all {all : List Community} {p : String}
    {l res : List Community} :
    FindLoop all p l res → l ⊆ all → res ⊆ all := by
  intro h
  induction h with
  | nil _ =>
    intro _ x hx
    cases hx
  | consMatch _ _ _ ihin ihrest =>
    intro hl x hx
    rcases List.mem_cons.mp hx with rfl | hmem
    · exact hl (List.mem_cons_self _ _)
    · rcases List.mem_append.mp hmem with hs | hr
      · exact ihin (fun y hy => hy) hs
      · exact ihrest (fun y hy => hl (List.mem_cons_of_mem _ hy)) hr
  | consSkip _ _ ih =>
    intro hl x hx
    exact ih (fun y hy => hl (List.mem_cons_of_mem _ hy)) hx

/-- Origin of a loop-result element: it is a direct child of the current
parent found in the scanned segment, or a strict descendant of such a
child. -/
lemma FindLoop.mem_cases {all : List Community} {p : String}
    {l res : List Community} (h : FindLoop all p l res) :
    ∀ d ∈ res, ∃ c ∈ l, c.parent = some p ∧ (d = c ∨ Reaches all c.id d) := by
  induction h with
  | nil _ =>
    intro d hd
    cases hd
  | consMatch hpar hin _ _ ihrest =>
    intro d hd
    rcases List.mem_cons.mp hd with rfl | hmem
    · exact ⟨d, List.mem_cons_self _ _, hpar, Or.inl rfl⟩
    · rcases List.mem_append.mp hmem with hs | hr
      · exact ⟨_, List.mem_cons_self _ _, hpar,
          Or.inr (hin.sound (fun x hx => hx) d hs)⟩
      · obtain ⟨c, hc, hcp, hor⟩ := ihrest d hr
        exact ⟨c, List.mem_cons_of_mem _ hc, hcp, hor⟩
  | consSkip _ _ ih =>
    intro d hd
    obtain ⟨c, hc, hcp, hor⟩ := ih d hd
    exact ⟨c, List.mem_cons_of_mem _ hc, hcp, hor⟩

lemma RankOk.parent_lt {rank : String → Nat} {all : List Community}
    (h : RankOk rank all) {c : Community} (hc : c ∈ all) {q : String}
    (hq : c.parent = some q) : rank q < rank c.id := by
  have := h c hc
  unfold parentRankOk at this
  rw [hq] at this
  simpa using this

/-- Along reachability, ranks strictly increase. -/
lemma Reaches.rank_lt {rank : String → Nat} {all : List Community}
    {root : String} {c : Community} (hrk : RankOk rank all)
    (h : Reaches all root c) : rank root < rank c.id := by
  induction h with
  | step hc hcp => exact hrk.parent_lt hc hcp
  | trans _ hc hcp ih => exact ih.trans (hrk.parent_lt hc hcp)

/-- Last-step decomposition of reachability: a reachable community's
parent reference is the root itself or the identifier of a reachable
community. -/
lemma Reaches.parent_cases {all : List Community} {root : String}
    {c : Community} (h : Reaches all root c) {q : String}
    (hq : c.parent = some q) :
    q = root ∨ ∃ d ∈ all, d.id = q ∧ Reaches all root d := by
  cases h with
  | step _ hp =>
    left
    rw [hp] at hq
    exact (Option.some.inj hq).symm
  | @trans d _ hd _ hp =>
    right
    rw [hp] at hq
    exact ⟨d, hd.mem, Option.some.inj hq, hd⟩

/-- In an acyclic listing, no community reachable from a sibling's
identifier can itself be a child of the shared parent. -/
lemma no_sibling_reach {rank : String → Nat} {all : List Community}
    {p : String} {c' c : Community} (hrk : RankOk rank all)
    (hc' : c' ∈ all) (hp' : c'.parent = some p) (hp : c.parent = some p)
    (hr : Reaches all c'.id c) : False := by
  rcases hr.parent_cases hp with hq | ⟨d, _, hdid, hreach⟩
  · rw [hq] at hp'
    exact lt_irrefl _ (hrk.parent_lt hc' hp')
  · have h1 : rank c'.id < rank d.id := hreach.rank_lt hrk
    rw [hdid] at h1
    have h2 : rank p < rank c'.id := hrk.parent_lt hc' hp'
    omega

/-- Identifier injectivity on a duplicate-free listing. -/
lemma NodupIds.id_inj {all : List Community} (h : NodupIds all)
    {c d : Community} (hc : c ∈ all) (hd : d ∈ all) (hid : c.id = d.id) :
    c = d :=
  List.inj_on_of_nodup_map h hc hd hid

/-- In an acyclic duplicate-free listing, two ancestors of a common
community are identical or one is reachable from the other. -/
lemma reaches_ancestor_tri {rank : String → Nat} {all : List Community}
    (hrk : RankOk rank all) (hnd : NodupIds all) :
    ∀ n (c : Community) (p1 p2 : String), rank c.id ≤ n →
      Reaches all p1 c → Reaches all p2 c →
      p1 = p2 ∨ (∃ d ∈ all, d.id = p1 ∧ Reaches all p2 d) ∨
        (∃ d ∈ all, d.id = p2 ∧ Reaches all p1 d) := by
  intro n
  induction n with
  | zero =>
    intro c p1 p2 hn h1 _
    obtain ⟨q, hq⟩ := h1.parent_isSome
    have := hrk.parent_lt h1.mem hq
    omega
  | succ k ih =>
    intro c p1 p2 hn h1 h2
    obtain ⟨q, hq⟩ := h1.parent_isSome
    rcases h1.parent_cases hq with hq1 | ⟨d1, hd1, hid1, hr1⟩
    · rcases h2.parent_cases hq with hq2 | ⟨d2, hd2, hid2, hr2⟩
      · left
        rw [← hq1, ← hq2]
      · right; left
        exact ⟨d2, hd2, by rw [hid2, hq1], hr2⟩
    · rcases h2.parent_cases hq with hq2 | ⟨d2, hd2, hid2, hr2⟩
      · right; right
        exact ⟨d1, hd1, by rw [hid1, hq2], hr1⟩
      · have hdd : d1 = d2 := hnd.id_inj hd1 hd2 (by rw [hid1, hid2])
        subst hdd
        have hlt : rank d1.id < rank c.id := by
          have := hrk.parent_lt h1.mem hq
          have h1' : rank p1 < rank d1.id := hr1.rank_lt hrk
          rw [← hid1] at this
          omega
        exact ih d1 p1 p2 (by omega) hr1 hr2

/-- On an acyclic listing without duplicate identifiers, a terminating run
of the resolver loop returns each community at most once. -/
lemma FindLoop.nodup_ids {rank : String → Nat} {all : List Community}
    (hrk : RankOk rank all) (hnd : NodupIds all) {p : String}
    {l res : List Community} :
    FindLoop all p l res → l.Sublist all → (res.map Community.id).Nodup := by
  intro h
  induction h with
  | nil _ =>
    intro _
    simp
  | @consMatch p c l sub r hpar hin hrest ihin ihrest =>
    intro hl
    have hc_all : c ∈ all := hl.subset (List.mem_cons_self _ _)
    have hl' : l.Sublist all := List.sublist_of_cons_sublist hl
    have hcl_nd : ((c :: l).map Community.id).Nodup :=
      List.Sublist.nodup (hl.map _) hnd
    have hc_not_l : c.id ∉ l.map Community.id := by
      have h1 := hcl_nd
      simp only [List.map_cons, List.nodup_cons] at h1
      exact h1.1
    have hsub_nd : (sub.map Community.id).Nodup := ihin (List.Sublist.refl all)
    have hr_nd : (r.map Community.id).Nodup := ihrest hl'
    have reach_sub : ∀ d ∈ sub, Reaches all c.id d :=
      hin.sound (fun x hx => hx)
    have reach_r : ∀ d ∈ r, Reaches all p d := hrest.sound hl'.subset
    have hc_not_sub : c.id ∉ sub.map Community.id := by
      intro hmem
      obtain ⟨d, hd, hdid⟩ := List.mem_map.mp hmem
      have := (reach_sub d hd).rank_lt hrk
      rw [hdid] at this
      omega
    have hc_not_r : c.id ∉ r.map Community.id := by
      intro hmem
      obtain ⟨d, hd, hdid⟩ := List.mem_map.mp hmem
      have hdc : d = c := hnd.id_inj (reach_r d hd).mem hc_all hdid
      subst hdc
      obtain ⟨c', hc'l, hc'p, hor⟩ := hrest.mem_cases d hd
      rcases hor with rfl | hre
      · exact hc_not_l (List.mem_map_of_mem _ hc'l)
      · exact no_sibling_reach hrk (hl'.subset hc'l) hc'p hpar hre
    have hdisj : List.Disjoint (sub.map Community.id) (r.map Community.id) := by
      intro x hx1 hx2
      obtain ⟨d1, hd1, hdid1⟩ := List.mem_map.mp hx1
      obtain ⟨d2, hd2, hdid2⟩ := List.mem_map.mp hx2
      have hd12 : d2 = d1 :=
        hnd.id_inj (reach_r d2 hd2).mem (reach_sub d1 hd1).mem
          (by rw [hdid1, hdid2])
      subst hd12
      have hre_c : Reaches all c.id d2 := reach_sub d2 hd1
      obtain ⟨c', hc'l, hc'p, hor⟩ := hrest.mem_cases d2 hd2
      have hc'_all : c' ∈ all := hl'.subset hc'l
      rcases hor with rfl | hre
      · exact no_sibling_reach hrk hc_all hpar hc'p hre_c
      · rcases reaches_ancestor_tri hrk hnd (rank d2.id) d2 c.id c'.id
          (Nat.le_refl _) hre_c hre with heq | ⟨d, hdall, hdid, hrd⟩ | ⟨d, hdall, hdid, hrd⟩
        · have : c = c' := hnd.id_inj hc_all hc'_all heq
          subst this
          exact hc_not_l (List.mem_map_of_mem _ hc'l)
        · have : d = c := hnd.id_inj hdall hc_all hdid
          subst this
          exact no_sibling_reach hrk hc'_all hc'p hpar hrd
        · have : d = c' := hnd.id_inj hdall hc'_all hdid
          subst this
          exact no_sibling_reach hrk hc_all hpar hc'p hrd
    simp only [List.map_cons, List.map_append]
    rw [List.nodup_cons]
    refine ⟨?_, List.Nodup.append hsub_nd hr_nd hdisj⟩
    intro hmem
    rcases List.mem_append.mp hmem with hmem | hmem
    · exact hc_not_sub hmem
    · exact hc_not_r hmem
  | consSkip _ _ ih =>
    intro hl
    exact ih (List.sublist_of_cons_sublist hl)

/-- Discovery order: whenever a returned community's parent reference is
not the root of the run, the community with that identifier occurs
strictly earlier in the result list. -/
lemma FindLoop.parent_before {all : List Community} {p : String}
    {l res : List Community} (h : FindLoop all p l res) :
    ∀ l1 c l2, res = l1 ++ c :: l2 → ∀ q, c.parent = some q → q ≠ p →
      ∃ d ∈ l1, d.id = q := by
  induction h with
  | nil _ =>
    intro l1 c l2 heq
    exact absurd heq (by simp)
  | @consMatch p c0 l sub r hpar hin hrest ihin ihrest =>
    intro l1 c l2 heq q hq hqp
    cases l1 with
    | nil =>
      simp only [List.nil_append, List.cons.injEq] at heq
      obtain ⟨rfl, -⟩ := heq
      rw [hpar] at hq
      exact absurd (Option.some.inj hq).symm hqp
    | cons x l1' =>
      simp only [List.cons_append, List.cons.injEq] at heq
      obtain ⟨rfl, hsr⟩ := heq
      rcases List.append_eq_append_iff.mp hsr with ⟨a', ha1, ha2⟩ | ⟨c', hc1, hc2⟩
      · obtain ⟨d, hd, hdid⟩ := ihrest a' c l2 ha2 q hq hqp
        refine ⟨d, ?_, hdid⟩
        rw [ha1]
        exact List.mem_cons_of_mem _ (List.mem_append_right _ hd)
      · cases c' with
        | nil =>
          simp only [List.nil_append] at hc2
          obtain ⟨d, hd, -⟩ := ihrest [] c l2 hc2.symm q hq hqp
          cases hd
        | cons y t =>
          simp only [List.cons_append, List.cons.injEq] at hc2
          obtain ⟨rfl, -⟩ := hc2
          by_cases hqc : q = c0.id
          · exact ⟨c0, List.mem_cons_self _ _, hqc.symm⟩
          · obtain ⟨d, hd, hdid⟩ := ihin l1' c t hc1 q hq hqc
            exact ⟨d, List.mem_cons_of_mem _ hd, hdid⟩
  | consSkip _ _ ih =>
    intro l1 c l2 heq q hq hqp
    exact ih l1 c l2 heq q hq hqp

/-- The loop terminates on a segment as soon as every direct child of the
current parent in it has a terminating inner run. -/
lemma findLoop_exists_of_children {all : List Community} {p : String} :
    ∀ l : List Community,
      (∀ c ∈ l, c.parent = some p → ∃ sub, FindLoop all c.id all sub) →
      ∃ r, FindLoop all p l r := by
  intro l
  induction l with
  | nil =>
    intro _
    exact ⟨[], FindLoop.nil p⟩
  | cons c t ih =>
    intro hch
    obtain ⟨r, hr⟩ := ih (fun d hd hdp => hch d (List.mem_cons_of_mem _ hd) hdp)
    by_cases hc : c.parent = some p
    · obtain ⟨sub, hsub⟩ := hch c (List.mem_cons_self _ _) hc
      exact ⟨c :: (sub ++ r), FindLoop.consMatch hc hsub hr⟩
    · exact ⟨r, FindLoop.consSkip hc hr⟩

lemma list_le_foldr_max (l : List Nat) : ∀ x ∈ l, x ≤ l.foldr max 0 := by
  induction l with
  | nil => simp
  | cons a t ih =>
    intro x hx
    simp only [List.foldr_cons]
    rcases List.mem_cons.mp hx with rfl | hmem
    · exact le_max_left _ _
    · exact le_trans (ih x hmem) (le_max_right _ _)

/-- On an acyclic listing, `findDescendants` terminates from every root:
some run exists. -/
lemma findLoop_total {all : List Community} (hA : Acyclic all) (p : String) :
    ∃ res, FindLoop all p all res := by
  obtain ⟨rank, hrk⟩ := hA
  have hb : ∀ c ∈ all, rank c.id ≤ (all.map (fun c => rank c.id)).foldr max 0 := by
    intro c hc
    exact list_le_foldr_max _ _ (List.mem_map_of_mem _ hc)
  have key : ∀ k q, (all.map (fun c => rank c.id)).foldr max 0 + 1 - rank q ≤ k →
      ∃ res, FindLoop all q all res := by
    intro k
    induction k with
    | zero =>
      intro q hk
      apply findLoop_exists_of_children
      intro c hc hcp
      exfalso
      have h1 := hrk.parent_lt hc hcp
      have h2 := hb c hc
      omega
    | succ k ih =>
      intro q hk
      apply findLoop_exists_of_children
      intro c hc hcp
      apply ih
      have h1 := hrk.parent_lt hc hcp
      have h2 := hb c hc
      omega
  exact key ((all.map (fun c => rank c.id)).foldr max 0 + 1) p (by omega)

/-- On the cyclic listing, `findDescendants("a")` has no terminating run:
the JavaScript recursion diverges. -/
lemma findDesc_cyc_diverges : ¬ ∃ res, FindDescRel cycListing "a" res := by
  rintro ⟨res, h⟩
  have hc : cycCommunity ∈ res := h.mem_of_child _ (List.mem_cons_self _ _) rfl
  exact h.not_mem_self _ hc rfl

lemma subcommunitiesListing_eq_take (data : List Community) :
    subcommunitiesListing data = data.take pageSize := by
  simp [subcommunitiesListing, getCommunities, queryCommunities]

lemma getCommunityByName_eq_head (data : List Community) (name : String) :
    getCommunityByName data name =
      (data.filter (fun c => c.name = name)).head? := by
  unfold getCommunityByName queryCommunities
  simp only [List.drop_zero]
  rcases hf : data.filter (fun c => c.name = name) with - | ⟨c, t⟩ <;> rw [hf]
  · rfl
  · rw [show pageSize = 999 + 1 from rfl, List.take_succ_cons]
    rfl

lemma exportMultipleCommunities_eq_map (pipeline : Community → Except String Unit)
    (units : List Community) :
    exportMultipleCommunities pipeline units = units.map (unitResult pipeline) := by
  induction units with
  | nil => rfl
  | cons c rest ih => simp [exportMultipleCommunities, ih]

lemma exForest_loop_b : FindLoop exForest "b" exForest [] := by
  show FindLoop exForest "b" [exChild1, exChild2] []
  exact FindLoop.consSkip (by decide)
    (FindLoop.consSkip (by decide) (FindLoop.nil "b"))

lemma exForest_loop_a : FindLoop exForest "a" exForest [exChild2] := by
  show FindLoop exForest "a" [exChild1, exChild2] [exChild2]
  refine FindLoop.consSkip (by decide) ?_
  exact @FindLoop.consMatch exForest "a" exChild2 [] [] [] rfl exForest_loop_b
    (FindLoop.nil "a")

/-- The concrete terminating run of `findDescendants("r")` on `exForest`:
it returns both descendants, parent before child. -/
lemma exForest_run : FindDescRel exForest "r" [exChild1, exChild2] := by
  show FindLoop exForest "r" [exChild1, exChild2] [exChild1, exChild2]
  exact @FindLoop.consMatch exForest "r" exChild1 [exChild2] [exChild2] [] rfl
    exForest_loop_a (FindLoop.consSkip (by decide) (FindLoop.nil "r"))

/-- Claim C1: with more than one unit supplied, `exportAll`
(`exportMultipleCommunities`) processes the units strictly in input order
and returns one ExportResult per unit in input order; a failure inside one
unit's pipeline is caught at that unit's boundary and recorded as a
Failure carrying the unit's name and the failure's description, and
processing continues with the next unit; with exactly one unit,
`exportOne` (`exportCommunity`) propagates the failure to its caller. -/
theorem exportAll_failure_isolation
    (pipeline : Community → Except String Unit) (units : List Community)
    (hmulti : 1 < units.length) :
    exportMultipleCommunities pipeline units = units.map (unitResult pipeline) ∧
    (exportMultipleCommunities pipeline units).length = units.length ∧
    (∀ c e, pipeline c = .error e →
      unitResult pipeline c =
        { success := false, community := c.name, error := some e }) ∧
    (∀ c, pipeline c = .ok () →
      unitResult pipeline c =
        { success := true, community := c.name, error := none }) ∧
    (∀ c e, pipeline c = .error e → exportCommunity pipeline c = .error e) := by
  refine ⟨exportMultipleCommunities_eq_map pipeline units, ?_, ?_, ?_, ?_⟩
  · rw [exportMultipleCommunities_eq_map]
    exact List.length_map _ _
  · intro c e he
    unfold unitResult
    rw [he]
  · intro c he
    unfold unitResult
    rw [he]
  · intro c e he
    unfold exportCommunity
    exact he

/-- Witness for C1: the three-unit batch in which unit 2's asset fetch
raises yields Success, Failure with description, Success, in order, while
the single-unit path surfaces the raw failure. -/
theorem exportAll_failure_isolation_witness :
    exportMultipleCommunities exPipeline [exUnit1, exUnit2, exUnit3] =
      [{ success := true, community := "Unit One", error := none },
       { success := false, community := "Unit Two",
         error := some "asset fetch failed" },
       { success := true, community := "Unit Three", error := none }] ∧
    exportCommunity exPipeline exUnit2 = .error "asset fetch failed" := by
  have h := exportAll_failure_isolation exPipeline [exUnit1, exUnit2, exUnit3]
    (by decide)
  refine ⟨?_, h.2.2.2.2 exUnit2 "asset fetch failed" rfl⟩
  rw [h.1]
  rfl

/-- Claim C2: against a remote source holding any sequence of items served
in pages of at most `pageSize`, `fetchAllPages` starting at offset 0 and
advancing by `pageSize` per request returns exactly the source's items in
order, for every length, including zero and exact multiples of the page
size. -/
theorem fetchAll_pagination_complete {α : Type} (data : List α) :
    fetchAllPages data = data :=
  fetchAllPages_complete data

/-- Claim C3: on a forest-shaped, duplicate-free community listing, a
terminating run of the descendant resolution returns exactly the
communities transitively reachable from the root via parent references,
each exactly once, and no community appears in the output before the
community its parent reference names. -/
theorem findDescendants_closure (all : List Community) (root : String)
    (res : List Community) (hA : Acyclic all) (hN : NodupIds all)
    (h : FindDescRel all root res) :
    (∀ c, c ∈ res ↔ Reaches all root c) ∧
    (res.map Community.id).Nodup ∧
    (∀ l1 c l2, res = l1 ++ c :: l2 → ∀ q, c.parent = some q → q ≠ root →
      ∃ d ∈ l1, d.id = q) := by
  obtain ⟨rank, hrk⟩ := hA
  exact ⟨fun c => ⟨h.sound (fun x hx => hx) c, h.complete c⟩,
    FindLoop.nodup_ids hrk hN h (List.Sublist.refl all),
    h.parent_before⟩

/-- Witness for C3: on the concrete two-level forest, the run returns both
descendants exactly once, and the child of `a` comes after `a`. -/
theorem findDescendants_closure_witness :
    (∀ c, c ∈ [exChild1, exChild2] ↔ Reaches exForest "r" c) ∧
    (([exChild1, exChild2].map Community.id).Nodup) ∧
    (∀ l1 c l2, ([exChild1, exChild2] : List Community) = l1 ++ c :: l2 →
      ∀ q, c.parent = some q → q ≠ "r" → ∃ d ∈ l1, d.id = q) :=
  findDescendants_closure exForest "r" [exChild1, exChild2]
    ⟨exForestRank, by decide⟩ (by decide) exForest_run

/-- Claim C4: the descendant resolution terminates on every acyclic
(forest-shaped) listing; and on every listing containing a cycle of
parent references reachable from the root — a community that lies on a
parent-reference cycle (it is reachable from its own identifier) and is
reachable from the root — the recursion has no terminating run: absence
of cycles is a precondition, not a detected error. -/
theorem findDescendants_termination :
    (∀ (all : List Community) (root : String), Acyclic all →
      ∃ res, FindDescRel all root res) ∧
    (∀ (all : List Community) (root : String),
      (∃ c ∈ all, Reaches all c.id c ∧ Reaches all root c) →
      ¬ ∃ res, FindDescRel all root res) := by
  refine ⟨fun all root hA => findLoop_total hA root, ?_⟩
  rintro all root ⟨c, -, hcyc, hroot⟩ ⟨res, hres⟩
  have hc_res : c ∈ res := hres.complete c hroot
  obtain ⟨sub, hsub, -⟩ := hres.inner c hc_res
  have hc_sub : c ∈ sub := hsub.complete c hcyc
  exact hsub.not_mem_self c hc_sub rfl

/-- Witness for C4: the concrete forest has a terminating run, and the
one-community self-parent listing — a cycle reachable from the root — has
none. -/
theorem findDescendants_termination_witness :
    (∃ res, FindDescRel exForest "r" res) ∧
    ¬ ∃ res, FindDescRel cycListing "a" res :=
  ⟨findDescendants_termination.1 exForest "r" ⟨exForestRank, by decide⟩,
   findDescendants_termination.2 cycListing "a"
     ⟨cycCommunity, List.mem_cons_self _ _,
      Reaches.step (List.mem_cons_self _ _) rfl,
      Reaches.step (List.mem_cons_self _ _) rfl⟩⟩

/-- Claim C5: `getCommunityByName` returns the first community whose name
is exactly (case-sensitively) equal to the requested name — partial
matches are never returned — and returns the distinct not-found signal
`none` when no exact match exists, however many partial matches exist. -/
theorem communityByName_exact_match (data : List Community) (name : String) :
    getCommunityByName data name =
      (data.filter (fun c => c.name = name)).head? ∧
    (getCommunityByName data name = none ↔ ∀ c ∈ data, c.name ≠ name) ∧
    (∀ c, getCommunityByName data name = some c →
      c ∈ data ∧ c.name = name) := by
  refine ⟨getCommunityByName_eq_head data name, ?_, ?_⟩
  · rw [getCommunityByName_eq_head data name]
    rw [List.head?_eq_none_iff]
    rw [List.filter_eq_nil_iff]
    simp
  · intro c hc
    rw [getCommunityByName_eq_head data name] at hc
    have hmem : c ∈ data.filter (fun c => c.name = name) :=
      List.mem_of_mem_head? hc
    have := List.mem_filter.mp hmem
    exact ⟨this.1, by simpa using this.2⟩

/-- Witness for C5: with both a community literally named Finance and one
named Finance EMEA present, the exact name resolves to the former, and a
name with no exact match yields the not-found signal. -/
theorem communityByName_exact_match_witness :
    getCommunityByName
      [{ id := "f2", name := "Finance EMEA" },
       { id := "f1", name := "Finance" }] "Finance" =
      some { id := "f1", name := "Finance" } ∧
    getCommunityByName
      [{ id := "f2", name := "Finance EMEA" },
       { id := "f1", name := "Finance" }] "Fin" = none := by
  constructor
  · rw [(communityByName_exact_match _ "Finance").1]
    rfl
  · exact (communityByName_exact_match _ "Fin").2.1.mpr (by decide)

/-- Claim C6: a page with strictly fewer items than the fixed page size
ends the pagination loop immediately after that page — the loop returns
just that page's items and issues no further request — including when the
short page is the very first page or is empty. -/
theorem pagination_short_page_ends {α : Type} (data : List α) (offset : Nat)
    (h : (pageOf data offset).length < pageSize) :
    fetchPagesFrom data offset = pageOf data offset ∧
    fetchPagesOffsets data offset = [offset] :=
  ⟨fetchPagesFrom_short data offset h, fetchPagesOffsets_short data offset h⟩

/-- Witness for C6: an empty first page ends the run with one request at
offset 0 and no items. -/
theorem pagination_short_page_ends_witness :
    fetchPagesFrom ([] : List Nat) 0 = pageOf ([] : List Nat) 0 ∧
    fetchPagesOffsets ([] : List Nat) 0 = [0] :=
  pagination_short_page_ends [] 0 (by decide)

/-- Claim C7: when the request for page `n` raises (all earlier pages
having been full, successful pages), the whole fetch aborts with that
error — nothing accumulated from earlier pages is returned — and the loop
has requested each offset exactly once, in order, without retrying or
skipping any page. -/
theorem pagination_failure_propagates {α : Type} (data : List α)
    (failAt : Nat → Option String) (n : Nat) (e : String)
    (hok : ∀ m, m < n → failAt (m * pageSize) = none)
    (hfull : ∀ m, m < n → (pageOf data (m * pageSize)).length = pageSize)
    (hfail : failAt (n * pageSize) = some e) :
    fetchAllPagesE data failAt = .error e ∧
    fetchAllOffsetsE data failAt =
      (List.range (n + 1)).map (fun m => m * pageSize) := by
  have h := fetchPagesFromE_fail data failAt n 0 e
    (by simpa using hok) (by simpa using hfull) (by simpa using hfail)
  unfold fetchAllPagesE fetchAllOffsetsE
  refine ⟨h.1, ?_⟩
  rw [h.2]
  apply List.map_congr_left
  intro m _
  omega

/-- Witness for C7: with a full first page and the second request raising,
the fetch returns the error (not the first page's 1000 items) and the
trace is the two offsets 0 and 1000. -/
theorem pagination_failure_propagates_witness :
    fetchAllPagesE (List.replicate pageSize (0 : Nat)) exFailAt =
      .error "request failed" ∧
    fetchAllOffsetsE (List.replicate pageSize (0 : Nat)) exFailAt =
      (List.range 2).map (fun m => m * pageSize) :=
  pagination_failure_propagates (List.replicate pageSize (0 : Nat)) exFailAt 1
    "request failed"
    (by
      intro m hm
      have hm0 : m = 0 := by omega
      subst hm0
      rfl)
    (by
      intro m hm
      have hm0 : m = 0 := by omega
      subst hm0
      simp [pageOf])
    rfl

/-- Claim C8: with `includeAssets` false the aggregator issues no
attribute, relation, or responsibility fetch whatever the three sub-flags
say (they are inert); with `includeAttributes` false the attributes facet
is absent from the result record (`none`), not present as an empty
sequence; and `configureExportOptions` itself leaves all three sub-flags
unset when assets are excluded, because their prompts are gated on
`includeAssets`. -/
theorem aggregate_flag_gating (opts : ExportOptions)
    (fa : String → List AssetAttribute) (fr : String → List AssetRelation)
    (fp : String → List Responsibility) (a : Asset) :
    (opts.includeAssets = false → (aggregate opts fa fr fp a).2 = []) ∧
    (opts.includeAttributes = false →
      (aggregate opts fa fr fp a).1.attributes = none ∧
      ∀ l, (aggregate opts fa fr fp a).1.attributes ≠ some l) ∧
    (∀ u : PromptAnswers, u.includeAssets = false →
      configureExportOptions u =
        { includeAssets := false, includeAttributes := false,
          includeRelations := false, includeResponsibilities := false }) := by
  refine ⟨?_, ?_, ?_⟩
  · intro h
    simp [aggregate, h]
  · intro h
    constructor
    · simp [aggregate, h]
    · intro l
      simp [aggregate, h]
  · intro u hu
    simp [configureExportOptions, hu]

/-- Witness for C8: concrete option records with assets excluded issue no
sub-fetches, and with attributes excluded the facet is absent. -/
theorem aggregate_flag_gating_witness :
    (aggregate ⟨false, true, true, true⟩ (fun _ => []) (fun _ => [])
      (fun _ => []) ⟨"a1", "Asset", "d1", none⟩).2 = [] ∧
    (aggregate ⟨true, false, true, true⟩ (fun _ => []) (fun _ => [])
      (fun _ => []) ⟨"a1", "Asset", "d1", none⟩).1.attributes = none :=
  ⟨(aggregate_flag_gating ⟨false, true, true, true⟩ (fun _ => [])
      (fun _ => []) (fun _ => []) ⟨"a1", "Asset", "d1", none⟩).1 rfl,
   ((aggregate_flag_gating ⟨true, false, true, true⟩ (fun _ => [])
      (fun _ => []) (fun _ => []) ⟨"a1", "Asset", "d1", none⟩).2.1 rfl).1⟩

/-- Counterexample to claim C9: the listing over which
`getAllSubcommunities` resolves descendants is a single
`getCommunities({limit: 1000})` response, not the paginated fetch of all
pages.  On a catalog of 1001 communities whose last entry is a direct
child of `root`, that child is reachable in the catalog and the Paginated
Fetcher would return it, yet it is absent from the listing used and
therefore from every terminating result of the resolution. -/
theorem getAllSubcommunities_first_page_counterexample :
    overflowChild ∈ bigCatalog ∧
    Reaches bigCatalog "root" overflowChild ∧
    fetchAllPages bigCatalog = bigCatalog ∧
    subcommunitiesListing bigCatalog ≠ fetchAllPages bigCatalog ∧
    overflowChild ∉ subcommunitiesListing bigCatalog ∧
    (∀ res, GetAllSubcommunitiesRel bigCatalog "root" res →
      overflowChild ∉ res) := by
  have hmem : overflowChild ∈ bigCatalog := by
    unfold bigCatalog
    exact List.mem_append_right _ (List.mem_singleton.mpr rfl)
  have hlist : subcommunitiesListing bigCatalog =
      List.replicate pageSize fillerCommunity := by
    rw [subcommunitiesListing_eq_take]
    unfold bigCatalog
    exact List.take_left' (List.length_replicate _ _)
  have hnot : overflowChild ∉ subcommunitiesListing bigCatalog := by
    rw [hlist]
    intro hmem'
    have := List.eq_of_mem_replicate hmem'
    exact absurd (congrArg Community.id this) (by decide)
  refine ⟨hmem, Reaches.step hmem rfl, fetchAllPages_complete bigCatalog,
    ?_, hnot, ?_⟩
  · rw [fetchAllPages_complete bigCatalog, hlist]
    intro hcontra
    have hlen := congrArg List.length hcontra
    simp only [List.length_replicate, bigCatalog, List.length_append,
      List.length_singleton] at hlen
    omega
  · intro res hres hmem'
    have hsub : res ⊆ subcommunitiesListing bigCatalog :=
      FindLoop.subset_all hres (fun x hx => hx)
    exact hnot (hsub hmem')

/-- Claim C9 as amended: the listing over which `getAllSubcommunities`
resolves descendants is the first page (offset 0, limit 1000) of the
community listing, so every terminating result draws only on the first
1000 communities of the catalog; the listing is the complete catalog
exactly when the catalog fits in one page. -/
theorem getAllSubcommunities_first_page_only (data : List Community)
    (root : String) (res : List Community)
    (h : GetAllSubcommunitiesRel data root res) :
    subcommunitiesListing data = data.take pageSize ∧
    res ⊆ data.take pageSize ∧
    (data.length ≤ pageSize → subcommunitiesListing data = data) := by
  refine ⟨subcommunitiesListing_eq_take data, ?_, ?_⟩
  · have hsub : res ⊆ subcommunitiesListing data :=
      FindLoop.subset_all h (fun x hx => hx)
    rw [subcommunitiesListing_eq_take] at hsub
    exact hsub
  · intro hlen
    rw [subcommunitiesListing_eq_take]
    exact List.take_of_length_le hlen

/-- Witness for the amended C9 on the small forest catalog. -/
theorem getAllSubcommunities_first_page_only_witness :
    subcommunitiesListing exForest = exForest.take pageSize ∧
    ([exChild1, exChild2] : List Community) ⊆ exForest.take pageSize ∧
    (exForest.length ≤ pageSize → subcommunitiesListing exForest = exForest) :=
  getAllSubcommunities_first_page_only exForest "r" [exChild1, exChild2]
    exForest_run

/-- Claim C10: a terminating result of the descendant resolution never
contains the community whose identifier equals the root identifier: the
result holds strict descendants only, whatever the listing. -/
theorem getAllSubcommunities_excludes_root :
    (∀ (data : List Community) (root : String) (res : List Community),
      GetAllSubcommunitiesRel data root res → ∀ c ∈ res, c.id ≠ root) ∧
    (∀ (all : List Community) (root : String) (res : List Community),
      FindDescRel all root res → ∀ c ∈ res, c.id ≠ root) :=
  ⟨fun _ _ _ h => h.not_mem_self, fun _ _ _ h => h.not_mem_self⟩

/-- Witness for C10 on the concrete forest run. -/
theorem getAllSubcommunities_excludes_root_witness :
    ∀ c ∈ ([exChild1, exChild2] : List Community), c.id ≠ "r" :=
  getAllSubcommunities_excludes_root.1 exForest "r" [exChild1, exChild2]
    exForest_run
